import Mathlib

/-!
Verification of the bulk-transfer and asynchronous job-polling core of the
`autos` repository against its specification.

The development shallowly embeds the relevant Python code:

* `autos.utils.file.remove_file` over a filesystem modelled as the finite
  set of existing paths;
* `autos.db.postgres.Postgres.load_from_file`, `load_rows` and `dblink_bq`,
  with psycopg2 transaction scoping (`with conn` commits on normal exit and
  rolls back on an exception) made explicit;
* the BigQuery polling loops (`autos.googlecloud.bigquery.io.poll`,
  `autos.googlecloud.bigquery.jobs.Jobs.run` and the legacy
  `autos.googlecloud.bigquery.Jobs.poll`) as fuel-indexed loops that record
  the observable remote events (reloads, sleeps, collections);
* `BigQueryIO.copy_csv_from` / `copy_json_from` as effect-trace functions;
* the delimited row codec (`autos.utils.csv.fwrite_csv` / `fread_csv`,
  which delegate to the Python `csv` module) as an executable encoder and a
  character-level decoding automaton for the QUOTE_MINIMAL dialect.

External collaborators (the database server, the remote BigQuery service,
the operating system) are parameters: their responses are inputs to the
embedded functions, and the functions compute the locally observable
outcome (result or raised error, final filesystem, event trace).
-/

namespace Autos

/-! ## Filesystem model and `autos.utils.file` -/

/-- A local filesystem is the finite set of existing paths. -/
abbrev FS := Finset String

/-- Errors raised by `os` filesystem calls that the embedded code meets. -/
inductive OSError where
  | fileNotFound
deriving DecidableEq, Repr

/-- `os.remove(path)`: deletes the file, raising `FileNotFoundError` when
`path` does not exist. -/
def osRemove (fs : FS) (path : String) : Except OSError FS :=
  if path ∈ fs then .ok (fs.erase path) else .error .fileNotFound

/-- `autos.utils.file.remove_file`: calls `os.remove` and suppresses
`FileNotFoundError` (`try: os.remove(path) except FileNotFoundError: pass`). -/
def remove_file (fs : FS) (path : String) : Except OSError FS :=
  match osRemove fs path with
  | .ok fs1 => .ok fs1
  | .error .fileNotFound => .ok fs

/-! ## Postgres bulk transfer (`autos.db.postgres`) -/

/-- A row of text fields, as moved by COPY. -/
abbrev Row := List String

/-- A table is its current list of rows. -/
abbrev Table := List Row

/-- Errors surfaced by the database driver during a transfer. -/
inductive DBError where
  | copyError
deriving DecidableEq, Repr

/-- The statements `load_from_file` issues on its cursor inside one
`with self.conn` block: an optional `TRUNCATE TABLE`, then
`cursor.copy_expert(copy_sql, file)`.  The COPY outcome is the response of
the server/driver: either the parsed rows appended to the table, or a
raised error. -/
inductive PgStmt where
  | truncate
  | copyFrom (data : Except DBError Table)

/-- Effect of one statement on the working (uncommitted) table state. -/
def runStmts (t : Table) : List PgStmt → Except DBError Table
  | [] => .ok t
  | .truncate :: rest => runStmts [] rest
  | .copyFrom (.error e) :: _ => .error e
  | .copyFrom (.ok rows) :: rest => runStmts (t ++ rows) rest

/-- psycopg2 `with self.conn`: the statements run in one transaction; on
normal exit the connection commits the working state, on an exception it
rolls back, leaving the committed table unchanged.  The pair is
(outcome, committed table after the block). -/
def withConn (t : Table) (stmts : List PgStmt) : Except DBError Unit × Table :=
  match runStmts t stmts with
  | .ok t1 => (.ok (), t1)
  | .error e => (.error e, t)

/-- `Postgres.load_from_file(file, table_name, ..., truncate_table)`: inside
a single `with file, self.conn, self.conn.cursor() as cursor` block it
optionally truncates the table and then streams the file into it via
`copy_expert`.  `copyData` is the COPY outcome supplied by the server. -/
def load_from_file (t : Table) (truncate_table : Bool)
    (copyData : Except DBError Table) : Except DBError Unit × Table :=
  withConn t ((if truncate_table then [PgStmt.truncate] else []) ++ [PgStmt.copyFrom copyData])

/-- `Postgres.load_rows(rows, table_name, columns, truncate_table)`:
writes the rows to a fresh temporary file (`to_temp_file`), calls
`load_from_filename` (hence `load_from_file`), and only afterwards calls
`file.remove_file(filename)`; the call sequence has no try/finally, so the
removal runs only when the load returned normally.  Result: the load
outcome with the final table, and the final filesystem. -/
def load_rows (t : Table) (fs : FS) (tmpName : String) (truncate_table : Bool)
    (copyData : Except DBError Table) : (Except DBError Unit × Table) × FS :=
  let fs1 := insert tmpName fs
  let res := load_from_file t truncate_table copyData
  match res.1 with
  | .error e => ((.error e, res.2), fs1)
  | .ok _ =>
      match remove_file fs1 tmpName with
      | .ok fs2 => ((.ok (), res.2), fs2)
      | .error _ => ((.ok (), res.2), fs1)

/-- Outcome of `load_from_filenames`, which loads each downloaded shard in
turn: the first raised error propagates, later shards are not loaded. -/
def load_results : List (Except DBError Unit) → Except DBError Unit
  | [] => .ok ()
  | .error e :: _ => .error e
  | .ok _ :: rest => load_results rest

/-- `Postgres.dblink_bq(bqio, dest, query/source, dir)`: obtains the shard
paths from `bqio.copy_csv_to` or `bqio.dump` (both only download files into
`dir`) and calls `load_from_filenames` on them.  Neither `dblink_bq` nor
any of the functions it calls removes the downloaded files, on success or
on failure.  `outcomes` are the per-shard load outcomes supplied by the
database. -/
def dblink_bq (fs : FS) (downloaded : List String)
    (outcomes : List (Except DBError Unit)) : Except DBError Unit × FS :=
  let fs1 := fs ∪ downloaded.toFinset
  (load_results outcomes, fs1)

/-! ## BigQuery job polling (`autos.googlecloud.bigquery`) -/

/-- The structured error payload a failed BigQuery job carries
(`job.error_result`, a dict with at least a reason and a message). -/
structure ErrorResult where
  reason : String
  message : String
deriving DecidableEq, Repr

/-- A remote BigQuery job as observed by the client.  `stateAfter n` is the
value of `job.state` after `n` calls to `job.reload()` (`stateAfter 0` is
the state on entry to the polling loop); `error_result` is the payload
visible once the job has finished. -/
structure RemoteJob where
  name : String
  stateAfter : Nat → String
  error_result : Option ErrorResult

/-- `autos.googlecloud.bigquery.errors.JobError`: raised by `poll` for a
finished job with an `error_result`; it carries the job name and the
remote error payload (reason and message). -/
structure JobError where
  jobName : String
  reason : String
  message : String
deriving DecidableEq, Repr

/-- Observable events of the single-job polling loop: one `job.reload()`
followed by one `time.sleep(1)` per iteration. -/
inductive PollEv where
  | reload
  | sleep
deriving DecidableEq, Repr

/-- The `while job.state != 'DONE'` loop of
`autos.googlecloud.bigquery.io.poll`: while the observed state is not
DONE, reload and sleep one second.  The loop is indexed by fuel (an upper
bound on the number of iterations we run it for); it returns `none` when
the job is still unfinished after `fuel` reloads, and otherwise the number
of reloads issued together with the event trace. -/
def pollLoop (j : RemoteJob) (i : Nat) : Nat → Option (Nat × List PollEv)
  | 0 => if j.stateAfter i = "DONE" then some (i, []) else none
  | f + 1 =>
      if j.stateAfter i = "DONE" then some (i, [])
      else (pollLoop j (i + 1) f).map (fun p => (p.1, PollEv.reload :: PollEv.sleep :: p.2))

/-- `autos.googlecloud.bigquery.io.poll(job)`: run the loop, then raise
`JobError(job)` when `job.error_result` is set, else return normally. -/
def poll (j : RemoteJob) (fuel : Nat) : Option (Except JobError Unit) :=
  (pollLoop j 0 fuel).map (fun _ =>
    match j.error_result with
    | some er => .error ⟨j.name, er.reason, er.message⟩
    | none => .ok ())

/-- A job in the batch poller `Jobs.run`: its id and the number of reloads
after which the remote reports state DONE (the job reports DONE after `k`
reloads exactly when `doneAfter ≤ k`). -/
structure QJob where
  id : Nat
  doneAfter : Nat
deriving DecidableEq, Repr

/-- A queue entry of `Jobs.run`: the job and its reload count so far. -/
abbrev Entry := QJob × Nat

/-- Number of further reloads until the entry is observed DONE and
collected (at least one, because `run` always reloads before checking). -/
def rem (e : Entry) : Nat := max 1 (e.1.doneAfter - e.2)

/-- Total number of loop iterations `Jobs.run` needs to drain the queue. -/
def totalNeeded (q : List Entry) : Nat := (q.map rem).sum

/-- Observable events of `Jobs.run`: a `job.reload()`; a
`random_delay(mean=3/len(queue))` recording the queue size and the mean it
was computed from; a job leaving the queue after being observed DONE. -/
inductive Ev where
  | reload (id : Nat)
  | sleep (size : Nat) (mean : ℚ)
  | collect (id : Nat)
deriving DecidableEq, Repr

/-- The `while queue` loop of `autos.googlecloud.bigquery.jobs.Jobs.run`:
compute `delay_mean = 3/len(queue)`, pop the leftmost job, reload it,
sleep, then re-append it if its state is not DONE and drop it (collect)
otherwise.  Fuel-indexed; `none` means the queue was not drained within
`fuel` iterations. -/
def runLoop : List Entry → Nat → Option (List Ev)
  | [], _ => some []
  | _ :: _, 0 => none
  | (j, k) :: rest, fuel + 1 =>
      let size := rest.length + 1
      let mean : ℚ := 3 / size
      if j.doneAfter ≤ k + 1 then
        (runLoop rest fuel).map (fun evs =>
          Ev.reload j.id :: Ev.sleep size mean :: Ev.collect j.id :: evs)
      else
        (runLoop (rest ++ [(j, k + 1)]) fuel).map (fun evs =>
          Ev.reload j.id :: Ev.sleep size mean :: evs)

/-- `Jobs._begin` pops jobs from the end of `self.jobs`, so the polling
queue starts as the reversed submission list with zero reloads each. -/
def initQ (jobs : List QJob) : List Entry := jobs.reverse.map (fun j => (j, 0))

/-- `Jobs.run(self)`: begin all submitted jobs, then drain the queue. -/
def run (jobs : List QJob) (fuel : Nat) : Option (List Ev) :=
  runLoop (initQ jobs) fuel

/-- The job ids reloaded by a trace, in order. -/
def reloadsOf (evs : List Ev) : List Nat :=
  evs.filterMap (fun e => match e with | .reload i => some i | _ => none)

/-- The job ids collected by a trace, in order. -/
def collectedOf (evs : List Ev) : List Nat :=
  evs.filterMap (fun e => match e with | .collect i => some i | _ => none)

/-- The (queue size, mean) pairs of the sleeps of a trace, in order. -/
def sleepsOf (evs : List Ev) : List (Nat × ℚ) :=
  evs.filterMap (fun e => match e with | .sleep s m => some (s, m) | _ => none)

/-- The collection order of `runLoop`, computed without fuel: pop the head
entry; after its reload it is collected when `rem` is 1 and otherwise
re-queued with one more reload.  Mirrors `runLoop` exactly. -/
def collectOrder : List Entry → List Nat
  | [] => []
  | (j, k) :: rest =>
      if j.doneAfter ≤ k + 1 then j.id :: collectOrder rest
      else collectOrder (rest ++ [(j, k + 1)])
termination_by q => totalNeeded q
decreasing_by
  · simp only [totalNeeded, List.map_cons, List.sum_cons]
    have h1 : 1 ≤ max 1 (j.doneAfter - k) := Nat.le_max_left _ _
    simp only [rem]
    omega
  · simp only [totalNeeded, List.map_append, List.sum_append, List.map_cons,
      List.sum_cons, List.map_nil, List.sum_nil, rem]
    omega

/-- A job in the legacy batch poller `autos.googlecloud.bigquery.Jobs`:
after `k` full reload cycles its state is DONE exactly when
`doneAfter ≤ k` (`doneAfter 0` means the job is DONE before any reload). -/
structure LJob where
  id : Nat
  doneAfter : Nat
deriving DecidableEq, Repr

/-- The `while not self.done: self.reload(); time.sleep(1)` loop of the
legacy `autos.googlecloud.bigquery.Jobs.poll`: `done` is
`all(job.state == 'DONE' for job in self)`, and `self.reload()` reloads
EVERY job in the list, whether or not it was already observed DONE.
Returns the trace of reloaded job ids, or `none` when fuel runs out. -/
def legacyPollLoop (jobs : List LJob) (k : Nat) : Nat → Option (List Nat)
  | 0 => if jobs.all (fun j => j.doneAfter ≤ k) then some [] else none
  | f + 1 =>
      if jobs.all (fun j => j.doneAfter ≤ k) then some []
      else (legacyPollLoop jobs (k + 1) f).map (fun t => jobs.map LJob.id ++ t)

/-! ## BigQuery load submission (`BigQueryIO.copy_csv_from` / `copy_json_from`) -/

/-- Errors raised by the load-submission methods. -/
inductive BqError where
  | loadConfigurationError
  | datasetNotFound
  | jobFailed (e : JobError)
deriving DecidableEq, Repr

/-- Remote effects of the load-submission methods, in issue order: the
table lookup of `get_table`, one upload per source path
(`import_bucket.upload_files`), the job submission (`job.begin()`), and
the status reloads of `poll`. -/
inductive BqEffect where
  | getTable (dataset tbl : String)
  | upload (path : String)
  | beginJob
  | reloadJob
deriving DecidableEq, Repr

/-- `BigQueryIO.copy_csv_from(dataset_name, table_name, paths, ...,
create_disposition, schema)`: first the configuration check — if
`create_disposition == 'CREATE_IF_NEEDED'` and the schema is empty, raise
`LoadConfigurationError` before anything else; then `get_table` (raising
`DatasetNotFound` when the dataset is missing), the uploads, the job
submission and `execute(job) = job.begin(); poll(job)`.  Returns the
outcome (`none` while the job is still polling after `fuel` reloads) and
the remote effect trace. -/
def copy_csv_from (dataset tbl : String) (paths : List String)
    (create_disposition : String) (schema : List String)
    (datasetExists : Bool) (job : RemoteJob) (fuel : Nat) :
    Option (Except BqError Unit) × List BqEffect :=
  if create_disposition = "CREATE_IF_NEEDED" ∧ schema = [] then
    (some (.error .loadConfigurationError), [])
  else if datasetExists = false then
    (some (.error .datasetNotFound), [.getTable dataset tbl])
  else
    match pollLoop job 0 fuel with
    | some p =>
        (some (match job.error_result with
               | some er => .error (.jobFailed ⟨job.name, er.reason, er.message⟩)
               | none => .ok ()),
         BqEffect.getTable dataset tbl :: paths.map BqEffect.upload
           ++ BqEffect.beginJob :: List.replicate p.1 BqEffect.reloadJob)
    | none =>
        (none,
         BqEffect.getTable dataset tbl :: paths.map BqEffect.upload
           ++ BqEffect.beginJob :: List.replicate (fuel + 1) BqEffect.reloadJob)

/-- `BigQueryIO.copy_json_from`: identical control flow to `copy_csv_from`
(the only differences are the job format options, which have no effect on
the checked behaviour): configuration check first, then lookup, uploads,
submission and polling. -/
def copy_json_from (dataset tbl : String) (paths : List String)
    (create_disposition : String) (schema : List String)
    (datasetExists : Bool) (job : RemoteJob) (fuel : Nat) :
    Option (Except BqError Unit) × List BqEffect :=
  if create_disposition = "CREATE_IF_NEEDED" ∧ schema = [] then
    (some (.error .loadConfigurationError), [])
  else if datasetExists = false then
    (some (.error .datasetNotFound), [.getTable dataset tbl])
  else
    match pollLoop job 0 fuel with
    | some p =>
        (some (match job.error_result with
               | some er => .error (.jobFailed ⟨job.name, er.reason, er.message⟩)
               | none => .ok ()),
         BqEffect.getTable dataset tbl :: paths.map BqEffect.upload
           ++ BqEffect.beginJob :: List.replicate p.1 BqEffect.reloadJob)
    | none =>
        (none,
         BqEffect.getTable dataset tbl :: paths.map BqEffect.upload
           ++ BqEffect.beginJob :: List.replicate (fuel + 1) BqEffect.reloadJob)

/-! ## Delimited row codec (`autos.utils.csv`)

`fwrite_csv` and `fread_csv` delegate to the Python `csv` module with the
default dialect apart from the configurable delimiter: quote character
`"`, QUOTE_MINIMAL quoting, line terminator CRLF on write, files opened
with `newline=''` so quoted fields may span lines on read.  The model
below embeds that dialect at the character level for NUL-free text (the
`csv` reader rejects NUL bytes; that corner, and text-encoding issues, are
outside the model).  The codec never converts field values: everything is
read and written as text, and the configured null token of the transfer
layer is not interpreted here. -/

namespace Csv

/-- QUOTE_MINIMAL: a field must be quoted when it contains the delimiter,
the quote character, or a line-terminator character. -/
def isSpecial (d c : Char) : Bool := c = d || c = '"' || c = '\r' || c = '\n'

/-- Quote-escaping inside a quoted field: the quote character is doubled. -/
def escape : List Char → List Char
  | [] => []
  | '"' :: cs => '"' :: '"' :: escape cs
  | c :: cs => c :: escape cs

/-- One serialized field: quoted (with doubled quotes) when any character
is special, written raw otherwise. -/
def encodeField (d : Char) (f : List Char) : List Char :=
  if f.any (isSpecial d) then '"' :: (escape f ++ ['"']) else f

/-- The serialized fields of a record, separated by the delimiter. -/
def joinFields (d : Char) : List (List Char) → List Char
  | [] => []
  | [f] => encodeField d f
  | f :: fs => encodeField d f ++ d :: joinFields d fs

/-- One serialized record, without its line terminator.  A record whose
serialization would be empty while holding a field — exactly the record
with one empty field — is written as an empty quoted pair so it stays
distinguishable from a blank line (the writer's rec_len == 0 special
case). -/
def encodeRow (d : Char) (r : List (List Char)) : List Char :=
  if r = [[]] then ['"', '"'] else joinFields d r

/-- `csv.writer(fp, delimiter=d).writerows(rows)`: each record followed by
CRLF. -/
def encode (d : Char) (rows : List (List (List Char))) : List Char :=
  (rows.map (fun r => encodeRow d r ++ ['\r', '\n'])).flatten

/-- Reader states of the `csv` parsing automaton: start of a record, start
of a field (after a delimiter), inside an unquoted field, inside a quoted
field, just after a quote inside a quoted field, and just after a CR that
ended a record (where a following LF is consumed silently). -/
inductive PState where
  | sr
  | sf
  | fld
  | q
  | qq
  | el
deriving DecidableEq, Repr

/-- The `csv` reader automaton for the dialect above, one character per
step.  `f` is the current field (reversed), `r` the fields of the current
record (reversed), `rows` the finished records (reversed).  Blank lines
yield an empty record, as in Python.  At end of input a pending field or
record is emitted (the reader is non-strict); inputs that the Python
reader rejects with `csv.Error` — a bare CR inside an unquoted field
read from a string rather than a file — cannot occur in file-backed
streams and are parsed here as a record boundary. -/
def decodeAux (d : Char) (st : PState) (f : List Char) (r : List (List Char))
    (rows : List (List (List Char))) : List Char → List (List (List Char))
  | [] =>
      match st with
      | .sr => rows.reverse
      | .el => rows.reverse
      | _ => ((f.reverse :: r).reverse :: rows).reverse
  | c :: cs =>
      match st with
      | .sr =>
          if c = '\r' then decodeAux d .el f r ([] :: rows) cs
          else if c = '\n' then decodeAux d .sr f r ([] :: rows) cs
          else if c = '"' then decodeAux d .q f r rows cs
          else if c = d then decodeAux d .sf [] (f.reverse :: r) rows cs
          else decodeAux d .fld (c :: f) r rows cs
      | .sf =>
          if c = '\r' then decodeAux d .el [] [] ((f.reverse :: r).reverse :: rows) cs
          else if c = '\n' then decodeAux d .sr [] [] ((f.reverse :: r).reverse :: rows) cs
          else if c = '"' then decodeAux d .q f r rows cs
          else if c = d then decodeAux d .sf [] (f.reverse :: r) rows cs
          else decodeAux d .fld (c :: f) r rows cs
      | .fld =>
          if c = '\r' then decodeAux d .el [] [] ((f.reverse :: r).reverse :: rows) cs
          else if c = '\n' then decodeAux d .sr [] [] ((f.reverse :: r).reverse :: rows) cs
          else if c = d then decodeAux d .sf [] (f.reverse :: r) rows cs
          else decodeAux d .fld (c :: f) r rows cs
      | .q =>
          if c = '"' then decodeAux d .qq f r rows cs
          else decodeAux d .q (c :: f) r rows cs
      | .qq =>
          if c = '"' then decodeAux d .q ('"' :: f) r rows cs
          else if c = d then decodeAux d .sf [] (f.reverse :: r) rows cs
          else if c = '\r' then decodeAux d .el [] [] ((f.reverse :: r).reverse :: rows) cs
          else if c = '\n' then decodeAux d .sr [] [] ((f.reverse :: r).reverse :: rows) cs
          else decodeAux d .fld (c :: f) r rows cs
      | .el =>
          if c = '\n' then decodeAux d .sr f r rows cs
          else if c = '\r' then decodeAux d .el f r ([] :: rows) cs
          else if c = '"' then decodeAux d .q f r rows cs
          else if c = d then decodeAux d .sf [] (f.reverse :: r) rows cs
          else decodeAux d .fld (c :: f) r rows cs

/-- `csv.reader(fp, delimiter=d)`: run the automaton from the start of a
record on the whole stream. -/
def decode (d : Char) (cs : List Char) : List (List (List Char)) :=
  decodeAux d .sr [] [] [] cs

end Csv

/-- Errors of the row-reading helpers: `itertuples` calls `next(reader)`
(raising `StopIteration` on an empty stream), builds the row type with
`collections.namedtuple('Row', header)` (raising `ValueError` for an
invalid field name), and then builds one namedtuple per row, which fails
when a row does not have one value per header name. -/
inductive CsvError where
  | stopIteration
  | valueError
  | arityMismatch
deriving DecidableEq, Repr

/-- `autos.utils.csv.fwrite_csv(fp, rows, ...)` on an iterable of rows
(the `csv.writer` branch, `from_dict=False`): serialize the rows with the
configured delimiter.  Callers that want a header line pass it as the
first row. -/
def fwrite_csv (d : Char) (rows : List (List String)) : String :=
  ⟨Csv.encode d (rows.map (fun r => r.map String.data))⟩

/-- A character that may start a Python identifier (ASCII range). -/
def isIdentStart (c : Char) : Bool := c.isAlpha || c = '_'

/-- A character that may continue a Python identifier (ASCII range). -/
def isIdentChar (c : Char) : Bool := c.isAlphanum || c = '_'

/-- `str.isidentifier()` for ASCII text: nonempty, an identifier start
character followed by identifier characters.  (The XID_Start/XID_Continue
classification of non-ASCII codepoints is outside the model; header names
here are ASCII text.) -/
def isidentifier (s : String) : Bool :=
  match s.data with
  | [] => false
  | c :: cs => isIdentStart c && cs.all isIdentChar

/-- The Python keywords (`keyword.kwlist`), rejected as field names. -/
def pythonKeywords : List String :=
  ["False", "None", "True", "and", "as", "assert", "async", "await",
   "break", "class", "continue", "def", "del", "elif", "else", "except",
   "finally", "for", "from", "global", "if", "import", "in", "is",
   "lambda", "nonlocal", "not", "or", "pass", "raise", "return", "try",
   "while", "with", "yield"]

/-- `name.startswith('_')`: the first character is an underscore. -/
def startsWithUnderscore (s : String) : Bool :=
  match s.data with
  | [] => false
  | c :: _ => c = '_'

/-- A name occurring again later in the list (CPython's `seen` loop). -/
def hasDuplicate : List String → Bool
  | [] => false
  | s :: rest => rest.contains s || hasDuplicate rest

/-- The validation `collections.namedtuple('Row', header)` performs with
the default `rename=False`: every field name must be a valid identifier
that is not a Python keyword, must not start with an underscore, and must
not duplicate another field name; any violation raises `ValueError`.
(The constant type name 'Row' always passes its own checks.) -/
def validFieldNames (header : List String) : Bool :=
  header.all (fun s =>
    isidentifier s && !(pythonKeywords.contains s) && !(startsWithUnderscore s))
  && !(hasDuplicate header)

/-- `autos.utils.csv.itertuples(fp)`: consume the first record as the
header, build the namedtuple type from it (raising `ValueError` when a
header name fails namedtuple's field-name validation), then yield one
namedtuple per remaining record; the tuple values are the row texts,
unconverted.  Building `Row(*row)` needs exactly one value per header
name. -/
def itertuples (d : Char) (s : String) : Except CsvError (List (List String)) :=
  match (Csv.decode d s.data).map (fun r => r.map (fun f => (⟨f⟩ : String))) with
  | [] => .error .stopIteration
  | header :: rows =>
      if !(validFieldNames header) then .error .valueError
      else if rows.all (fun r => r.length = header.length) then .ok rows
      else .error .arityMismatch

/-- `autos.utils.csv.fread_csv(fp, as_namedtuple, ...)`: with
`as_namedtuple=False` (and `as_dict=False`) it yields the raw records of
`csv.reader`; with `as_namedtuple=True` it delegates to `itertuples`. -/
def fread_csv (as_namedtuple : Bool) (d : Char) (s : String) :
    Except CsvError (List (List String)) :=
  if as_namedtuple then itertuples d s
  else .ok ((Csv.decode d s.data).map (fun r => r.map (fun f => (⟨f⟩ : String))))

/-! ## Concrete instances used to exhibit the proved properties -/

/-- A remote job that reports RUNNING for the first two reloads, DONE from
the second reload on, and carries an error payload. -/
def sampleFailedJob : RemoteJob :=
  ⟨"job-load-1", fun n => if 2 ≤ n then "DONE" else "RUNNING", some ⟨"invalid", "bad data"⟩⟩

/-- A remote job that is already DONE when the polling loop is entered. -/
def doneJob : RemoteJob := ⟨"job-done", fun _ => "DONE", none⟩

/-- Legacy batch: job 1 is DONE before any reload, job 2 after two cycles. -/
def legacyJobs : List LJob := [⟨1, 0⟩, ⟨2, 2⟩]

/-- Three submitted jobs completing after 1, 2 and 3 poll cycles. -/
def jobs3 : List QJob := [⟨1, 1⟩, ⟨2, 2⟩, ⟨3, 3⟩]

/-- The event trace of `Jobs.run` on `jobs3` with just enough fuel. -/
def evs3 : List Ev := (run jobs3 (totalNeeded (initQ jobs3))).getD []

/-! ## Filesystem and Postgres theorems -/

/-- Claim C10: `remove_file` returns normally both when the file exists
(it is deleted) and when it does not (the `FileNotFoundError` is
suppressed), so removal is idempotent: a second call on the same path
never raises either. -/
theorem remove_file_total_and_idempotent (fs : FS) (path : String) :
    remove_file fs path = .ok (fs.erase path)
    ∧ path ∉ fs.erase path
    ∧ remove_file (fs.erase path) path = .ok (fs.erase path) := by
  have hne : path ∉ fs.erase path := Finset.not_mem_erase _ _
  refine ⟨?_, hne, ?_⟩
  · by_cases h : path ∈ fs
    · simp [remove_file, osRemove, h]
    · simp [remove_file, osRemove, h, Finset.erase_eq_of_not_mem h]
  · simp [remove_file, osRemove, hne]

/-- Claim C1: when `load_from_file` is called with `truncate_table=True`
and the COPY raises, the single scoped transaction containing both the
truncate and the COPY rolls back, so the committed table is exactly the
table from before the call — no partial write and no lone truncate is
observable.  When the COPY succeeds, the commit leaves exactly the loaded
rows. -/
theorem load_from_file_truncate_atomic (t : Table) (e : DBError) (rows : Table) :
    load_from_file t true (.error e) = (.error e, t)
    ∧ load_from_file t true (.ok rows) = (.ok (), rows)
    ∧ load_from_file t false (.error e) = (.error e, t) :=
  ⟨rfl, rfl, rfl⟩

/-- Claim C2 counterexample: `load_rows` calls `remove_file` only after
`load_from_filename` has returned, with no try/finally; on a failing load
the temporary file is still present afterwards, so the deletion is not
guaranteed on every exit path. -/
theorem load_rows_leaves_temp_file_on_failure :
    (load_rows [] ∅ "tmp.csv" false (.error .copyError)).1.1 = .error DBError.copyError
    ∧ "tmp.csv" ∈ (load_rows [] ∅ "tmp.csv" false (.error .copyError)).2 := by
  constructor
  · rfl
  · simp [load_rows, load_from_file, withConn, runStmts]

/-- Claim C2 amended: `load_rows` encodes the rows to a temporary file and
deletes it after a successful load; when the load raises, the exception
propagates before the `remove_file` call and the temporary file is left
behind. -/
theorem load_rows_cleanup_on_success_only (t : Table) (fs : FS) (tmp : String)
    (tr : Bool) (rows : Table) (e : DBError) :
    (load_rows t fs tmp tr (.ok rows)).1.1 = .ok ()
    ∧ tmp ∉ (load_rows t fs tmp tr (.ok rows)).2
    ∧ (load_rows t fs tmp tr (.error e)).1.1 = .error e
    ∧ (load_rows t fs tmp tr (.error e)).2 = insert tmp fs := by
  have hok : (load_from_file t tr (Except.ok rows)).1 = Except.ok () := by
    cases tr <;> rfl
  have herr : (load_from_file t tr (Except.error e)).1 = Except.error e := by
    cases tr <;> rfl
  have hmem : tmp ∈ insert tmp fs := Finset.mem_insert_self _ _
  refine ⟨?_, ?_, ?_, ?_⟩
  · simp [load_rows, hok, remove_file, osRemove, hmem]
  · simp [load_rows, hok, remove_file, osRemove, hmem]
  · simp [load_rows, herr]
  · simp [load_rows, herr]

/-- Claim C8 counterexample: after a `dblink_bq` copy completes — here a
successful one — the downloaded intermediate file is still present; the
function performs no cleanup. -/
theorem dblink_bq_file_not_removed :
    (dblink_bq ∅ ["shard0.csv"] [.ok ()]).1 = .ok ()
    ∧ "shard0.csv" ∈ (dblink_bq ∅ ["shard0.csv"] [.ok ()]).2 := by
  constructor
  · rfl
  · simp [dblink_bq]

/-- Claim C8 amended: `dblink_bq` downloads the intermediate shard files
into the local directory and loads them into the destination, but removes
none of them: every downloaded file is still present after the call,
whether the load succeeded or failed. -/
theorem dblink_bq_keeps_intermediate_files (fs : FS) (downloaded : List String)
    (outcomes : List (Except DBError Unit)) :
    (dblink_bq fs downloaded outcomes).1 = load_results outcomes
    ∧ downloaded.toFinset ⊆ (dblink_bq fs downloaded outcomes).2 := by
  refine ⟨rfl, ?_⟩
  simp [dblink_bq]

/-! ## Single-job polling theorems -/

/-- The polling loop stops at the first reload index whose observed state
is DONE, and its event trace is one reload and one sleep per iteration. -/
theorem pollLoop_spec (j : RemoteJob) :
    ∀ fuel i n evs, pollLoop j i fuel = some (n, evs) →
      i ≤ n ∧ j.stateAfter n = "DONE"
      ∧ (∀ m, i ≤ m → m < n → j.stateAfter m ≠ "DONE")
      ∧ evs = (List.replicate (n - i) [PollEv.reload, PollEv.sleep]).flatten := by
  intro fuel
  induction fuel with
  | zero =>
      intro i n evs h
      by_cases hs : j.stateAfter i = "DONE"
      · simp only [pollLoop, hs, if_true, Option.some.injEq, Prod.mk.injEq] at h
        obtain ⟨h1, h2⟩ := h
        subst h1
        refine ⟨le_refl _, hs, ?_, ?_⟩
        · intro m h1 h2; omega
        · simp [← h2]
      · simp [pollLoop, hs] at h
  | succ f IH =>
      intro i n evs h
      by_cases hs : j.stateAfter i = "DONE"
      · simp only [pollLoop, hs, if_true, Option.some.injEq, Prod.mk.injEq] at h
        obtain ⟨h1, h2⟩ := h
        subst h1
        refine ⟨le_refl _, hs, ?_, ?_⟩
        · intro m h1 h2; omega
        · simp [← h2]
      · simp only [pollLoop, hs, if_false, Option.map_eq_some'] at h
        obtain ⟨⟨n1, evs1⟩, hp, heq⟩ := h
        rw [Prod.mk.injEq] at heq
        obtain ⟨he1, he2⟩ := heq
        obtain ⟨hle, hdone, hmid, hevs⟩ := IH (i + 1) n1 evs1 hp
        subst he1
        refine ⟨by omega, hdone, ?_, ?_⟩
        · intro m h1 h2
          rcases Nat.eq_or_lt_of_le h1 with h3 | h3
          · exact h3 ▸ hs
          · exact hmid m (by omega) h2
        · have hk : n1 - i = (n1 - (i + 1)) + 1 := by omega
          rw [← he2, hevs, hk, List.replicate_succ, List.flatten_cons]
          rfl

/-- Claim C4: `poll` reloads the remote status, sleeping between reloads,
until the observed state is terminal; once the job has finished it raises
`JobError` carrying the remote error payload (job name, reason, message)
when `error_result` is present, and returns normally otherwise. -/
theorem poll_until_terminal_spec (j : RemoteJob) (fuel n : Nat) (evs : List PollEv)
    (h : pollLoop j 0 fuel = some (n, evs)) :
    j.stateAfter n = "DONE"
    ∧ evs = (List.replicate n [PollEv.reload, PollEv.sleep]).flatten
    ∧ (∀ er, j.error_result = some er →
        poll j fuel = some (.error ⟨j.name, er.reason, er.message⟩))
    ∧ (j.error_result = none → poll j fuel = some (.ok ())) := by
  obtain ⟨-, hdone, -, hevs⟩ := pollLoop_spec j fuel 0 n evs h
  refine ⟨hdone, by simpa using hevs, ?_, ?_⟩
  · intro er her
    simp [poll, h, her]
  · intro hnone
    simp [poll, h, hnone]

/-- Witness for C4: the sample failed job finishes after two reloads and
`poll` raises the `JobError` built from its remote payload. -/
theorem poll_until_terminal_witness :
    sampleFailedJob.stateAfter 2 = "DONE"
    ∧ ([PollEv.reload, PollEv.sleep, PollEv.reload, PollEv.sleep] : List PollEv)
        = (List.replicate 2 [PollEv.reload, PollEv.sleep]).flatten
    ∧ (∀ er, sampleFailedJob.error_result = some er →
        poll sampleFailedJob 5
          = some (.error ⟨sampleFailedJob.name, er.reason, er.message⟩))
    ∧ (sampleFailedJob.error_result = none → poll sampleFailedJob 5 = some (.ok ())) :=
  poll_until_terminal_spec sampleFailedJob 5 2
    [PollEv.reload, PollEv.sleep, PollEv.reload, PollEv.sleep] (by decide)

/-- Claim C7 counterexample: invoking `poll` on a job that is already in a
terminal state does not raise a programming error or assertion failure —
it performs zero reloads and returns normally. -/
theorem poll_terminal_returns_normally :
    poll doneJob 0 = some (.ok ()) ∧ pollLoop doneJob 0 0 = some (0, []) :=
  ⟨rfl, rfl⟩

/-- Claim C7 amended: the code enforces no state machine of its own — the
observed states come from the remote service — and polling a job that is
already DONE issues no reload and returns normally, raising `JobError`
only when the job carries an error payload. -/
theorem poll_terminal_noop (j : RemoteJob) (fuel : Nat) (h : j.stateAfter 0 = "DONE") :
    pollLoop j 0 fuel = some (0, [])
    ∧ (j.error_result = none → poll j fuel = some (.ok ()))
    ∧ (∀ er, j.error_result = some er →
        poll j fuel = some (.error ⟨j.name, er.reason, er.message⟩)) := by
  have hp : pollLoop j 0 fuel = some (0, []) := by
    cases fuel <;> simp [pollLoop, h]
  refine ⟨hp, ?_, ?_⟩
  · intro hn
    simp [poll, hp, hn]
  · intro er her
    simp [poll, hp, her]

/-- Witness for the amended C7 at the already-DONE sample job. -/
theorem poll_terminal_noop_witness :
    pollLoop doneJob 0 3 = some (0, [])
    ∧ (doneJob.error_result = none → poll doneJob 3 = some (.ok ()))
    ∧ (∀ er, doneJob.error_result = some er →
        poll doneJob 3 = some (.error ⟨doneJob.name, er.reason, er.message⟩)) :=
  poll_terminal_noop doneJob 3 rfl

/-- Claim C5 counterexample: in the legacy batch poller, job 1 reports
DONE before any reload (`doneAfter = 0`), yet because `self.reload()`
reloads every job in the list while any job is unfinished, job 1 is
reloaded twice more before the loop exits. -/
theorem legacy_poll_repolls_done_job :
    legacyPollLoop legacyJobs 0 2 = some [1, 2, 1, 2]
    ∧ List.count 1 [1, 2, 1, 2] = 2
    ∧ (∀ k, (⟨1, 0⟩ : LJob).doneAfter ≤ k) := by
  refine ⟨by decide, by decide, fun k => Nat.zero_le k⟩

/-! ## Batch poller (`Jobs.run`) theorems -/

theorem rem_pos (e : Entry) : 1 ≤ rem e := Nat.le_max_left _ _

theorem rem_eq_one_iff (j : QJob) (k : Nat) : rem (j, k) = 1 ↔ j.doneAfter ≤ k + 1 := by
  simp only [rem]
  omega

theorem rem_decr (j : QJob) (k : Nat) (h : ¬ j.doneAfter ≤ k + 1) :
    rem (j, k + 1) = rem (j, k) - 1 ∧ 2 ≤ rem (j, k) := by
  simp only [rem]
  omega

theorem totalNeeded_cons (e : Entry) (rest : List Entry) :
    totalNeeded (e :: rest) = rem e + totalNeeded rest := by
  simp [totalNeeded]

theorem totalNeeded_append_single (rest : List Entry) (e : Entry) :
    totalNeeded (rest ++ [e]) = totalNeeded rest + rem e := by
  simp [totalNeeded]

theorem totalNeeded_requeue (j : QJob) (k : Nat) (rest : List Entry)
    (h : ¬ j.doneAfter ≤ k + 1) :
    totalNeeded (rest ++ [(j, k + 1)]) < totalNeeded ((j, k) :: rest) := by
  obtain ⟨h1, h2⟩ := rem_decr j k h
  rw [totalNeeded_append_single, totalNeeded_cons, h1]
  omega

theorem totalNeeded_tail_lt (e : Entry) (rest : List Entry) :
    totalNeeded rest < totalNeeded (e :: rest) := by
  have := rem_pos e
  rw [totalNeeded_cons]
  omega

/-- Fuel equal to the total number of required reloads drains the queue. -/
theorem runLoop_total : ∀ n (q : List Entry), totalNeeded q = n →
    ∃ evs, runLoop q n = some evs := by
  intro n
  induction n with
  | zero =>
      intro q hq
      cases q with
      | nil => exact ⟨[], rfl⟩
      | cons e rest =>
          have h1 := rem_pos e
          rw [totalNeeded_cons] at hq
          omega
  | succ m IH =>
      intro q hq
      cases q with
      | nil => exact ⟨[], rfl⟩
      | cons e rest =>
          obtain ⟨j, k⟩ := e
          rw [totalNeeded_cons] at hq
          by_cases hb : j.doneAfter ≤ k + 1
          · have hr : rem (j, k) = 1 := (rem_eq_one_iff j k).mpr hb
            obtain ⟨evs, he⟩ := IH rest (by omega)
            refine ⟨Ev.reload j.id
              :: Ev.sleep (rest.length + 1) (3 / ((rest.length + 1 : Nat) : ℚ))
              :: Ev.collect j.id :: evs, ?_⟩
            simp [runLoop, hb, he]
          · obtain ⟨h1, h2⟩ := rem_decr j k hb
            have ht : totalNeeded (rest ++ [(j, k + 1)]) = m := by
              rw [totalNeeded_append_single, h1]
              omega
            obtain ⟨evs, he⟩ := IH _ ht
            refine ⟨Ev.reload j.id
              :: Ev.sleep (rest.length + 1) (3 / ((rest.length + 1 : Nat) : ℚ))
              :: evs, ?_⟩
            simp [runLoop, hb, he]

/-- Every queued job is reloaded by a completed run. -/
theorem runLoop_reload_mem : ∀ fuel (q : List Entry) evs,
    runLoop q fuel = some evs → ∀ e ∈ q, Ev.reload e.1.id ∈ evs := by
  intro fuel
  induction fuel with
  | zero =>
      intro q evs h e he
      cases q with
      | nil => simp at he
      | cons e0 rest => simp [runLoop] at h
  | succ f IH =>
      intro q evs h e he
      cases q with
      | nil => simp at he
      | cons e0 rest =>
          obtain ⟨j, k⟩ := e0
          by_cases hb : j.doneAfter ≤ k + 1
          · simp only [runLoop, hb, if_true, Option.map_eq_some'] at h
            obtain ⟨evs1, he1, heq⟩ := h
            subst heq
            rcases List.mem_cons.mp he with h2 | h2
            · subst h2
              simp
            · have := IH rest evs1 he1 e h2
              simp [this]
          · simp only [runLoop, hb, if_false, Option.map_eq_some'] at h
            obtain ⟨evs1, he1, heq⟩ := h
            subst heq
            rcases List.mem_cons.mp he with h2 | h2
            · subst h2
              simp
            · have := IH _ evs1 he1 e (List.mem_append_left _ h2)
              simp [this]

/-- Every sleep of a completed run uses mean `3 / size` where `size` is
the queue length at that iteration (which is at least one). -/
theorem runLoop_sleep_mean : ∀ fuel (q : List Entry) evs,
    runLoop q fuel = some evs →
    ∀ s m, Ev.sleep s m ∈ evs → m = 3 / (s : ℚ) ∧ 1 ≤ s := by
  intro fuel
  induction fuel with
  | zero =>
      intro q evs h s m hm
      cases q with
      | nil =>
          obtain rfl : evs = [] := by simpa [runLoop] using h.symm
          simp at hm
      | cons e0 rest => simp [runLoop] at h
  | succ f IH =>
      intro q evs h s m hm
      cases q with
      | nil =>
          obtain rfl : evs = [] := by simpa [runLoop] using h.symm
          simp at hm
      | cons e0 rest =>
          obtain ⟨j, k⟩ := e0
          by_cases hb : j.doneAfter ≤ k + 1
          · simp only [runLoop, hb, if_true, Option.map_eq_some'] at h
            obtain ⟨evs1, he1, heq⟩ := h
            subst heq
            rcases List.mem_cons.mp hm with h2 | h2
            · simp at h2
            rcases List.mem_cons.mp h2 with h3 | h3
            · obtain ⟨hs, hm2⟩ : s = rest.length + 1 ∧ m = 3 / ((rest.length + 1 : Nat) : ℚ) := by
                simpa [eq_comm] using h3
              subst hs
              exact ⟨hm2, by omega⟩
            rcases List.mem_cons.mp h3 with h4 | h4
            · simp at h4
            · exact IH rest evs1 he1 s m h4
          · simp only [runLoop, hb, if_false, Option.map_eq_some'] at h
            obtain ⟨evs1, he1, heq⟩ := h
            subst heq
            rcases List.mem_cons.mp hm with h2 | h2
            · simp at h2
            rcases List.mem_cons.mp h2 with h3 | h3
            · obtain ⟨hs, hm2⟩ : s = rest.length + 1 ∧ m = 3 / ((rest.length + 1 : Nat) : ℚ) := by
                simpa [eq_comm] using h3
              subst hs
              exact ⟨hm2, by omega⟩
            · exact IH _ evs1 he1 s m h3

/-- The ids collected by a completed run are `collectOrder` of the
initial queue. -/
theorem runLoop_collectedOf : ∀ fuel (q : List Entry) evs,
    runLoop q fuel = some evs → collectedOf evs = collectOrder q := by
  intro fuel
  induction fuel with
  | zero =>
      intro q evs h
      cases q with
      | nil =>
          obtain rfl : evs = [] := by simpa [runLoop] using h.symm
          simp [collectedOf, collectOrder]
      | cons e0 rest => simp [runLoop] at h
  | succ f IH =>
      intro q evs h
      cases q with
      | nil =>
          obtain rfl : evs = [] := by simpa [runLoop] using h.symm
          simp [collectedOf, collectOrder]
      | cons e0 rest =>
          obtain ⟨j, k⟩ := e0
          by_cases hb : j.doneAfter ≤ k + 1
          · simp only [runLoop, hb, if_true, Option.map_eq_some'] at h
            obtain ⟨evs1, he1, heq⟩ := h
            subst heq
            rw [collectOrder, if_pos hb]
            simpa [collectedOf] using IH rest evs1 he1
          · simp only [runLoop, hb, if_false, Option.map_eq_some'] at h
            obtain ⟨evs1, he1, heq⟩ := h
            subst heq
            rw [collectOrder, if_neg hb]
            simpa [collectedOf] using IH _ evs1 he1

/-- The collected ids are a permutation of the queued ids: the loop ends
exactly when every job has been observed DONE and collected. -/
theorem collectOrder_perm_aux : ∀ n (q : List Entry), totalNeeded q = n →
    (collectOrder q).Perm (q.map (fun e => e.1.id)) := by
  intro n
  induction n using Nat.strong_induction_on with
  | _ n IH =>
      intro q hq
      cases q with
      | nil => simp [collectOrder]
      | cons e rest =>
          obtain ⟨j, k⟩ := e
          by_cases hb : j.doneAfter ≤ k + 1
          · rw [collectOrder, if_pos hb]
            have hlt := totalNeeded_tail_lt (j, k) rest
            have hres := IH (totalNeeded rest) (by omega) rest rfl
            simp only [List.map_cons]
            exact hres.cons _
          · rw [collectOrder, if_neg hb]
            have hlt := totalNeeded_requeue j k rest hb
            have hres := IH (totalNeeded (rest ++ [(j, k + 1)])) (by omega) _ rfl
            refine hres.trans ?_
            simp only [List.map_append, List.map_cons, List.map_nil]
            exact List.perm_append_singleton _ _

theorem collectOrder_perm (q : List Entry) :
    (collectOrder q).Perm (q.map (fun e => e.1.id)) :=
  collectOrder_perm_aux _ q rfl

theorem collectOrder_mem (q : List Entry) (e : Entry) (he : e ∈ q) :
    e.1.id ∈ collectOrder q :=
  (collectOrder_perm q).mem_iff.mpr (List.mem_map_of_mem _ he)

/-- Two distinct members of a list appear in one order or the other. -/
theorem mem_mem_split {α : Type _} : ∀ (l : List α) (x y : α), x ∈ l → y ∈ l → x ≠ y →
    (∃ l1 l2 l3, l = l1 ++ x :: l2 ++ y :: l3)
    ∨ (∃ l1 l2 l3, l = l1 ++ y :: l2 ++ x :: l3) := by
  intro l
  induction l with
  | nil => intro x y hx _ _; simp at hx
  | cons a rest IH =>
      intro x y hx hy hxy
      rcases List.mem_cons.mp hx with h1 | h1
      · rcases List.mem_cons.mp hy with h2 | h2
        · exact absurd (h1.trans h2.symm) hxy
        · obtain ⟨s, t, hst⟩ := List.append_of_mem h2
          refine Or.inl ⟨[], s, t, ?_⟩
          rw [h1, hst]
          rfl
      · rcases List.mem_cons.mp hy with h2 | h2
        · obtain ⟨s, t, hst⟩ := List.append_of_mem h1
          refine Or.inr ⟨[], s, t, ?_⟩
          rw [h2, hst]
          rfl
        · rcases IH x y h1 h2 hxy with ⟨l1, l2, l3, he⟩ | ⟨l1, l2, l3, he⟩
          · exact Or.inl ⟨a :: l1, l2, l3, by rw [he]; rfl⟩
          · exact Or.inr ⟨a :: l1, l2, l3, by rw [he]; rfl⟩

/-- Round-robin collection order: of two queued entries, the one needing
(strictly) fewer further reloads is collected first; on a tie the one
nearer the queue head is collected first. -/
theorem collectOrder_before_aux : ∀ n (q : List Entry), totalNeeded q = n →
    ∀ l1 a l2 b l3, q = l1 ++ a :: l2 ++ b :: l3 →
      (rem a ≤ rem b → [a.1.id, b.1.id].Sublist (collectOrder q))
      ∧ (rem b < rem a → [b.1.id, a.1.id].Sublist (collectOrder q)) := by
  intro n
  induction n using Nat.strong_induction_on with
  | _ n IH =>
      intro q hq l1 a l2 b l3 hsplit
      cases q with
      | nil =>
          exfalso
          cases l1 <;> simp at hsplit
      | cons e rest =>
          obtain ⟨j, k⟩ := e
          by_cases hb : j.doneAfter ≤ k + 1
          · rw [collectOrder, if_pos hb]
            cases l1 with
            | nil =>
                obtain ⟨ha, hrest⟩ : (j, k) = a ∧ rest = l2 ++ b :: l3 := by
                  simpa using hsplit
                constructor
                · intro _
                  have hbmem : b.1.id ∈ collectOrder rest :=
                    collectOrder_mem rest b
                      (by rw [hrest]; exact List.mem_append_right _ (List.mem_cons_self _ _))
                  rw [← ha]
                  exact (List.singleton_sublist.mpr hbmem).cons₂ _
                · intro hba
                  have h1 : rem (j, k) = 1 := (rem_eq_one_iff j k).mpr hb
                  have h2 := rem_pos b
                  rw [← ha] at hba
                  omega
            | cons x l1a =>
                obtain ⟨hx, hrest⟩ : (j, k) = x ∧ rest = l1a ++ a :: l2 ++ b :: l3 := by
                  simpa using hsplit
                have hlt := totalNeeded_tail_lt (j, k) rest
                have hres := IH (totalNeeded rest) (by omega) rest rfl l1a a l2 b l3 hrest
                exact ⟨fun hab => (hres.1 hab).cons _, fun hba => (hres.2 hba).cons _⟩
          · rw [collectOrder, if_neg hb]
            have hlt : totalNeeded (rest ++ [(j, k + 1)]) < n := by
              have := totalNeeded_requeue j k rest hb
              omega
            cases l1 with
            | nil =>
                obtain ⟨ha, hrest⟩ : (j, k) = a ∧ rest = l2 ++ b :: l3 := by
                  simpa using hsplit
                have hq2 : rest ++ [(j, k + 1)] = l2 ++ b :: l3 ++ (j, k + 1) :: [] := by
                  rw [hrest]
                have hres := IH _ hlt (rest ++ [(j, k + 1)]) rfl l2 b l3 (j, k + 1) [] hq2
                obtain ⟨hd1, hd2⟩ := rem_decr j k hb
                constructor
                · intro hab
                  rw [← ha] at hab ⊢
                  exact hres.2 (by omega)
                · intro hba
                  rw [← ha] at hba ⊢
                  exact hres.1 (by omega)
            | cons x l1a =>
                obtain ⟨hx, hrest⟩ : (j, k) = x ∧ rest = l1a ++ a :: l2 ++ b :: l3 := by
                  simpa using hsplit
                have hq2 : rest ++ [(j, k + 1)] = l1a ++ a :: l2 ++ b :: (l3 ++ [(j, k + 1)]) := by
                  rw [hrest]
                  simp
                exact IH _ hlt _ rfl l1a a l2 b (l3 ++ [(j, k + 1)]) hq2

theorem collectOrder_before (q : List Entry) (l1 : List Entry) (a : Entry)
    (l2 : List Entry) (b : Entry) (l3 : List Entry) (hsplit : q = l1 ++ a :: l2 ++ b :: l3) :
    (rem a ≤ rem b → [a.1.id, b.1.id].Sublist (collectOrder q))
    ∧ (rem b < rem a → [b.1.id, a.1.id].Sublist (collectOrder q)) :=
  collectOrder_before_aux _ q rfl l1 a l2 b l3 hsplit

/-- Claim C6: with fuel for the required number of reloads, `Jobs.run`
drains its queue: every submitted job is reloaded at least once; the
collected ids are exactly the submitted ids; every sleep has mean
`3 / size` for the queue size at that iteration, so the mean delay is
proportional to `1 / len(queue)`; and a job completing after fewer poll
cycles is collected before one completing after more cycles. -/
theorem run_round_robin (jobs : List QJob) :
    ∃ evs, run jobs (totalNeeded (initQ jobs)) = some evs
      ∧ (∀ j ∈ jobs, Ev.reload j.id ∈ evs)
      ∧ (collectedOf evs).Perm (jobs.map QJob.id)
      ∧ (∀ s m, Ev.sleep s m ∈ evs → m = 3 / (s : ℚ) ∧ 1 ≤ s)
      ∧ (∀ j1 ∈ jobs, ∀ j2 ∈ jobs, max 1 j1.doneAfter < max 1 j2.doneAfter →
          [j1.id, j2.id].Sublist (collectedOf evs)) := by
  obtain ⟨evs, he⟩ := runLoop_total (totalNeeded (initQ jobs)) (initQ jobs) rfl
  have hinit : ∀ j ∈ jobs, ((j, 0) : Entry) ∈ initQ jobs := by
    intro j hj
    exact List.mem_map_of_mem _ (List.mem_reverse.mpr hj)
  refine ⟨evs, he, ?_, ?_, ?_, ?_⟩
  · intro j hj
    exact runLoop_reload_mem _ _ _ he (j, 0) (hinit j hj)
  · rw [runLoop_collectedOf _ _ _ he]
    refine (collectOrder_perm _).trans ?_
    have : (initQ jobs).map (fun e => e.1.id) = (jobs.map QJob.id).reverse := by
      simp [initQ, List.map_map, Function.comp]
    rw [this]
    exact List.reverse_perm _
  · intro s m hm
    exact runLoop_sleep_mean _ _ _ he s m hm
  · intro j1 hj1 j2 hj2 hlt
    rw [runLoop_collectedOf _ _ _ he]
    have hne : ((j1, 0) : Entry) ≠ (j2, 0) := by
      intro hc
      rw [Prod.mk.injEq] at hc
      rw [hc.1] at hlt
      omega
    have hr1 : rem ((j1, 0) : Entry) = max 1 j1.doneAfter := by simp [rem]
    have hr2 : rem ((j2, 0) : Entry) = max 1 j2.doneAfter := by simp [rem]
    rcases mem_mem_split (initQ jobs) (j1, 0) (j2, 0) (hinit j1 hj1) (hinit j2 hj2) hne with
      ⟨l1, l2, l3, hsp⟩ | ⟨l1, l2, l3, hsp⟩
    · exact (collectOrder_before _ l1 _ l2 _ l3 hsp).1 (by rw [hr1, hr2]; omega)
    · exact (collectOrder_before _ l1 _ l2 _ l3 hsp).2 (by rw [hr1, hr2]; omega)

/-- A job id absent from the queue generates no reload and no collect
event in the rest of the run. -/
theorem runLoop_events_of_not_mem : ∀ fuel (q : List Entry) evs i,
    runLoop q fuel = some evs → (∀ e ∈ q, e.1.id ≠ i) →
    Ev.reload i ∉ evs ∧ Ev.collect i ∉ evs := by
  intro fuel
  induction fuel with
  | zero =>
      intro q evs i h hni
      cases q with
      | nil =>
          obtain rfl : evs = [] := by simpa [runLoop] using h.symm
          simp
      | cons e0 rest => simp [runLoop] at h
  | succ f IH =>
      intro q evs i h hni
      cases q with
      | nil =>
          obtain rfl : evs = [] := by simpa [runLoop] using h.symm
          simp
      | cons e0 rest =>
          obtain ⟨j, k⟩ := e0
          have hj : j.id ≠ i := hni (j, k) (List.mem_cons_self _ _)
          by_cases hb : j.doneAfter ≤ k + 1
          · simp only [runLoop, hb, if_true, Option.map_eq_some'] at h
            obtain ⟨evs1, he1, heq⟩ := h
            subst heq
            have hrest := IH rest evs1 i he1
              (fun e he => hni e (List.mem_cons_of_mem _ he))
            have hj2 : i ≠ j.id := Ne.symm hj
            simp [hj, hj2, hrest.1, hrest.2]
          · simp only [runLoop, hb, if_false, Option.map_eq_some'] at h
            obtain ⟨evs1, he1, heq⟩ := h
            subst heq
            have hq2 : ∀ e ∈ rest ++ [(j, k + 1)], e.1.id ≠ i := by
              intro e he
              rcases List.mem_append.mp he with h2 | h2
              · exact hni e (List.mem_cons_of_mem _ h2)
              · obtain rfl : e = (j, k + 1) := by simpa using h2
                exact hj
            have hrest := IH _ evs1 i he1 hq2
            have hj2 : i ≠ j.id := Ne.symm hj
            simp [hj, hj2, hrest.1, hrest.2]

/-- In `Jobs.run` with distinct job ids, no job is reloaded after the
event that collected it: a job observed DONE leaves the queue and is
never re-polled. -/
theorem runLoop_no_reload_after_collect : ∀ fuel (q : List Entry) evs,
    (q.map (fun e => e.1.id)).Nodup → runLoop q fuel = some evs →
    ∀ i l1 l2, evs = l1 ++ Ev.collect i :: l2 → Ev.reload i ∉ l2 := by
  intro fuel
  induction fuel with
  | zero =>
      intro q evs hnd h i l1 l2 hsp
      cases q with
      | nil =>
          obtain rfl : evs = [] := by simpa [runLoop] using h.symm
          exact absurd hsp (by cases l1 <;> simp)
      | cons e0 rest => simp [runLoop] at h
  | succ f IH =>
      intro q evs hnd h i l1 l2 hsp
      cases q with
      | nil =>
          obtain rfl : evs = [] := by simpa [runLoop] using h.symm
          exact absurd hsp (by cases l1 <;> simp)
      | cons e0 rest =>
          obtain ⟨j, k⟩ := e0
          simp only [List.map_cons, List.nodup_cons] at hnd
          obtain ⟨hjid, hndr⟩ := hnd
          by_cases hb : j.doneAfter ≤ k + 1
          · simp only [runLoop, hb, if_true, Option.map_eq_some'] at h
            obtain ⟨evs1, he1, heq⟩ := h
            subst heq
            cases l1 with
            | nil => simp at hsp
            | cons x l1a =>
                cases l1a with
                | nil => simp at hsp
                | cons y l1b =>
                    simp only [List.cons_append, List.cons.injEq] at hsp
                    have hsp2 : Ev.collect j.id :: evs1 = l1b ++ Ev.collect i :: l2 :=
                      hsp.2.2
                    cases l1b with
                    | nil =>
                        obtain ⟨hji, hl2⟩ : j.id = i ∧ evs1 = l2 := by simpa using hsp2
                        subst hji
                        subst hl2
                        exact (runLoop_events_of_not_mem f rest evs1 j.id he1
                          (fun e he hc => hjid (hc ▸ List.mem_map_of_mem _ he))).1
                    | cons z l1c =>
                        simp only [List.cons_append, List.cons.injEq] at hsp2
                        exact IH rest evs1 hndr he1 i l1c l2 hsp2.2
          · simp only [runLoop, hb, if_false, Option.map_eq_some'] at h
            obtain ⟨evs1, he1, heq⟩ := h
            subst heq
            have hnd2 : ((rest ++ [(j, k + 1)]).map (fun e => e.1.id)).Nodup := by
              rw [List.map_append]
              refine (List.perm_append_singleton _ _).nodup_iff.mpr ?_
              simpa using List.nodup_cons.mpr ⟨hjid, hndr⟩
            cases l1 with
            | nil => simp at hsp
            | cons x l1a =>
                cases l1a with
                | nil => simp at hsp
                | cons y l1b =>
                    simp only [List.cons_append, List.cons.injEq] at hsp
                    exact IH _ evs1 hnd2 he1 i l1b l2 hsp.2.2

/-- Claim C5 amended: in the single-job polling loop a job is reloaded
only while its observed state is not DONE — the loop exits at the first
DONE observation and issues no further reload; in the deque-based batch
poller `Jobs.run` (with distinct job ids), a job observed DONE leaves the
queue and is never reloaded afterwards.  The legacy batch poller
`autos.googlecloud.bigquery.Jobs.poll`, by contrast, reloads every job in
each cycle, including jobs already observed DONE. -/
theorem terminal_not_repolled :
    (∀ (j : RemoteJob) (fuel n : Nat) (evs : List PollEv),
       pollLoop j 0 fuel = some (n, evs) →
       (∀ m, m < n → j.stateAfter m ≠ "DONE")
       ∧ evs = (List.replicate n [PollEv.reload, PollEv.sleep]).flatten)
    ∧ (∀ (q : List Entry) (fuel : Nat) (evs : List Ev),
        (q.map (fun e => e.1.id)).Nodup → runLoop q fuel = some evs →
        ∀ i l1 l2, evs = l1 ++ Ev.collect i :: l2 → Ev.reload i ∉ l2) := by
  constructor
  · intro j fuel n evs h
    obtain ⟨-, -, hmid, hevs⟩ := pollLoop_spec j fuel 0 n evs h
    exact ⟨fun m hm => hmid m (Nat.zero_le m) hm, by simpa using hevs⟩
  · exact fun q fuel evs hnd h => runLoop_no_reload_after_collect fuel q evs hnd h

/-- Witness for the amended C5 at the sample jobs. -/
theorem terminal_not_repolled_witness :
    ((∀ m, m < 2 → sampleFailedJob.stateAfter m ≠ "DONE")
      ∧ ([PollEv.reload, PollEv.sleep, PollEv.reload, PollEv.sleep] : List PollEv)
          = (List.replicate 2 [PollEv.reload, PollEv.sleep]).flatten)
    ∧ (∀ i l1 l2, evs3 = l1 ++ Ev.collect i :: l2 → Ev.reload i ∉ l2) := by
  constructor
  · exact terminal_not_repolled.1 sampleFailedJob 5 2
      [PollEv.reload, PollEv.sleep, PollEv.reload, PollEv.sleep] (by decide)
  · obtain ⟨evs, h⟩ := runLoop_total (totalNeeded (initQ jobs3)) (initQ jobs3) rfl
    have h3 : runLoop (initQ jobs3) (totalNeeded (initQ jobs3)) = some evs3 := by
      rw [h]
      unfold evs3 run
      rw [h]
      rfl
    exact terminal_not_repolled.2 (initQ jobs3) (totalNeeded (initQ jobs3)) evs3
      (by decide) h3

/-- Witness for C6 at the three-job batch of the specification: jobs
completing after 1, 2 and 3 cycles are all polled and collected in
completion order. -/
theorem run_round_robin_witness :
    Ev.reload 2 ∈ evs3
    ∧ (collectedOf evs3).Perm [1, 2, 3]
    ∧ [1, 2].Sublist (collectedOf evs3)
    ∧ [2, 3].Sublist (collectedOf evs3) := by
  obtain ⟨evs, h, p1, p2, p3, p4⟩ := run_round_robin jobs3
  have he : evs3 = evs := by
    unfold evs3 run
    rw [show runLoop (initQ jobs3) (totalNeeded (initQ jobs3)) = some evs from h]
    rfl
  rw [he]
  refine ⟨p1 ⟨2, 2⟩ (by simp [jobs3]), by simpa [jobs3] using p2, ?_, ?_⟩
  · exact p4 ⟨1, 1⟩ (by simp [jobs3]) ⟨2, 2⟩ (by simp [jobs3]) (by decide)
  · exact p4 ⟨2, 2⟩ (by simp [jobs3]) ⟨3, 3⟩ (by simp [jobs3]) (by decide)

/-! ## Load submission theorems -/

/-- Claim C9: when `create_disposition` is CREATE_IF_NEEDED and the schema
is empty, both `copy_csv_from` and `copy_json_from` raise
`LoadConfigurationError` as their very first step: no table lookup, no
file upload, no job submission and no status reload is issued, so all
remote state is untouched. -/
theorem copy_from_config_error_before_effects
    (dataset tbl : String) (paths : List String) (cd : String) (schema : List String)
    (dsE : Bool) (job : RemoteJob) (fuel : Nat)
    (hcd : cd = "CREATE_IF_NEEDED") (hs : schema = []) :
    copy_csv_from dataset tbl paths cd schema dsE job fuel
      = (some (.error .loadConfigurationError), [])
    ∧ copy_json_from dataset tbl paths cd schema dsE job fuel
      = (some (.error .loadConfigurationError), []) := by
  subst hcd
  subst hs
  constructor
  · rw [copy_csv_from, if_pos ⟨rfl, rfl⟩]
  · rw [copy_json_from, if_pos ⟨rfl, rfl⟩]

/-- Witness for C9 at a concrete misconfigured call. -/
theorem copy_from_config_error_witness :
    copy_csv_from "ds" "t" ["a.csv"] "CREATE_IF_NEEDED" [] true doneJob 3
      = (some (.error .loadConfigurationError), [])
    ∧ copy_json_from "ds" "t" ["a.csv"] "CREATE_IF_NEEDED" [] true doneJob 3
      = (some (.error .loadConfigurationError), []) :=
  copy_from_config_error_before_effects "ds" "t" ["a.csv"] "CREATE_IF_NEEDED" []
    true doneJob 3 rfl rfl

/-! ## Codec round-trip theorems -/

namespace Csv

theorem isSpecial_false_iff (d c : Char) :
    isSpecial d c = false ↔ c ≠ d ∧ c ≠ '"' ∧ c ≠ '\r' ∧ c ≠ '\n' := by
  simp [isSpecial, and_assoc]

theorem any_isSpecial_false {d : Char} {g : List Char} (h : ¬ g.any (isSpecial d) = true) :
    ∀ c ∈ g, isSpecial d c = false := by
  intro c hc
  rcases Bool.eq_false_or_eq_true (isSpecial d c) with h1 | h1
  · exact absurd (List.any_eq_true.mpr ⟨c, hc, h1⟩) h
  · exact h1

theorem step_sf_quote (d : Char) (f : List Char) (r : List (List Char)) (rows) (cs) :
    decodeAux d .sf f r rows ('"' :: cs) = decodeAux d .q f r rows cs := by
  simp [decodeAux]

theorem step_sf_char (d c : Char) (h1 : c ≠ d) (h2 : c ≠ '"') (h3 : c ≠ '\r')
    (h4 : c ≠ '\n') (f : List Char) (r : List (List Char)) (rows) (cs) :
    decodeAux d .sf f r rows (c :: cs) = decodeAux d .fld (c :: f) r rows cs := by
  simp [decodeAux, h1, h2, h3, h4]

theorem decode_sr_eq_sf (d c : Char) (h1 : c ≠ '\r') (h2 : c ≠ '\n')
    (f : List Char) (r : List (List Char)) (rows) (cs) :
    decodeAux d .sr f r rows (c :: cs) = decodeAux d .sf f r rows (c :: cs) := by
  simp [decodeAux, h1, h2]

/-- Walking an unquoted field up to a delimiter. -/
theorem decode_fld_walk_delim (d : Char) (hr : d ≠ '\r') (hn : d ≠ '\n') :
    ∀ (pl acc : List Char) (r : List (List Char)) rows cs,
      (∀ c ∈ pl, isSpecial d c = false) →
      decodeAux d .fld acc r rows (pl ++ d :: cs)
        = decodeAux d .sf [] ((acc.reverse ++ pl) :: r) rows cs := by
  intro pl
  induction pl with
  | nil =>
      intro acc r rows cs _
      simp [decodeAux, hr, hn]
  | cons c pl IH =>
      intro acc r rows cs h
      obtain ⟨h1, h2, h3, h4⟩ :=
        (isSpecial_false_iff d c).mp (h c (List.mem_cons_self _ _))
      rw [List.cons_append]
      rw [show decodeAux d .fld acc r rows (c :: (pl ++ d :: cs))
            = decodeAux d .fld (c :: acc) r rows (pl ++ d :: cs) from by
        simp [decodeAux, h1, h3, h4]]
      rw [IH (c :: acc) r rows cs (fun x hx => h x (List.mem_cons_of_mem _ hx))]
      simp

/-- Walking an unquoted field up to the record terminator. -/
theorem decode_fld_walk_crlf (d : Char) :
    ∀ (pl acc : List Char) (r : List (List Char)) rows cs,
      (∀ c ∈ pl, isSpecial d c = false) →
      decodeAux d .fld acc r rows (pl ++ '\r' :: '\n' :: cs)
        = decodeAux d .sr [] [] (((acc.reverse ++ pl) :: r).reverse :: rows) cs := by
  intro pl
  induction pl with
  | nil =>
      intro acc r rows cs _
      simp [decodeAux]
  | cons c pl IH =>
      intro acc r rows cs h
      obtain ⟨h1, h2, h3, h4⟩ :=
        (isSpecial_false_iff d c).mp (h c (List.mem_cons_self _ _))
      rw [List.cons_append]
      rw [show decodeAux d .fld acc r rows (c :: (pl ++ '\r' :: '\n' :: cs))
            = decodeAux d .fld (c :: acc) r rows (pl ++ '\r' :: '\n' :: cs) from by
        simp [decodeAux, h1, h3, h4]]
      rw [IH (c :: acc) r rows cs (fun x hx => h x (List.mem_cons_of_mem _ hx))]
      simp

/-- Walking the escaped body of a quoted field up to its closing quote. -/
theorem decode_q_escape_walk (d : Char) :
    ∀ (g acc : List Char) (r : List (List Char)) rows cs,
      decodeAux d .q acc r rows (escape g ++ '"' :: cs)
        = decodeAux d .qq (g.reverse ++ acc) r rows cs := by
  intro g
  induction g with
  | nil =>
      intro acc r rows cs
      simp [escape, decodeAux]
  | cons c g IH =>
      intro acc r rows cs
      by_cases hc : c = '"'
      · subst hc
        rw [show escape ('"' :: g) = '"' :: '"' :: escape g from rfl]
        rw [show ('"' :: '"' :: escape g) ++ '"' :: cs
              = '"' :: '"' :: (escape g ++ '"' :: cs) from rfl]
        rw [show decodeAux d .q acc r rows ('"' :: '"' :: (escape g ++ '"' :: cs))
              = decodeAux d .qq acc r rows ('"' :: (escape g ++ '"' :: cs)) from by
          simp [decodeAux]]
        rw [show decodeAux d .qq acc r rows ('"' :: (escape g ++ '"' :: cs))
              = decodeAux d .q ('"' :: acc) r rows (escape g ++ '"' :: cs) from by
          simp [decodeAux]]
        rw [IH ('"' :: acc) r rows cs]
        simp
      · rw [show escape (c :: g) = c :: escape g from by
          cases g <;> simp [escape, hc]]
        rw [List.cons_append]
        rw [show decodeAux d .q acc r rows (c :: (escape g ++ '"' :: cs))
              = decodeAux d .q (c :: acc) r rows (escape g ++ '"' :: cs) from by
          simp [decodeAux, hc]]
        rw [IH (c :: acc) r rows cs]
        simp

/-- Closing quote followed by a delimiter ends the field. -/
theorem decode_qq_delim (d : Char) (hq : d ≠ '"') (acc : List Char)
    (r : List (List Char)) (rows) (cs) :
    decodeAux d .qq acc r rows (d :: cs)
      = decodeAux d .sf [] (acc.reverse :: r) rows cs := by
  simp [decodeAux, hq]

/-- Closing quote followed by CRLF ends the field and the record. -/
theorem decode_qq_crlf (d : Char) (hr : d ≠ '\r') (acc : List Char)
    (r : List (List Char)) (rows) (cs) :
    decodeAux d .qq acc r rows ('\r' :: '\n' :: cs)
      = decodeAux d .sr [] [] ((acc.reverse :: r).reverse :: rows) cs := by
  have h1 : ('\r' : Char) ≠ d := Ne.symm hr
  simp [decodeAux, h1]

/-- One encoded field followed by a delimiter, from the field-start state. -/
theorem decode_field_delim (d : Char) (hq : d ≠ '"') (hr : d ≠ '\r') (hn : d ≠ '\n') :
    ∀ (g : List Char) (r : List (List Char)) rows cs,
      decodeAux d .sf [] r rows (encodeField d g ++ d :: cs)
        = decodeAux d .sf [] (g :: r) rows cs := by
  intro g r rows cs
  by_cases hsp : g.any (isSpecial d) = true
  · rw [encodeField, if_pos hsp]
    rw [show ('"' :: (escape g ++ ['"'])) ++ d :: cs
          = '"' :: (escape g ++ '"' :: d :: cs) from by simp]
    rw [step_sf_quote]
    rw [decode_q_escape_walk d g [] r rows (d :: cs)]
    rw [decode_qq_delim d hq]
    simp
  · rw [encodeField, if_neg hsp]
    have hall := any_isSpecial_false hsp
    cases g with
    | nil => simp [decodeAux, hq, hr, hn]
    | cons c g1 =>
        obtain ⟨h1, h2, h3, h4⟩ :=
          (isSpecial_false_iff d c).mp (hall c (List.mem_cons_self _ _))
        rw [List.cons_append, step_sf_char d c h1 h2 h3 h4]
        rw [decode_fld_walk_delim d hr hn g1 [c] r rows cs
          (fun x hx => hall x (List.mem_cons_of_mem _ hx))]
        simp

/-- One encoded field followed by CRLF, from the field-start state. -/
theorem decode_field_crlf (d : Char) (hr : d ≠ '\r') :
    ∀ (g : List Char) (r : List (List Char)) rows cs,
      decodeAux d .sf [] r rows (encodeField d g ++ '\r' :: '\n' :: cs)
        = decodeAux d .sr [] [] ((g :: r).reverse :: rows) cs := by
  intro g r rows cs
  by_cases hsp : g.any (isSpecial d) = true
  · rw [encodeField, if_pos hsp]
    rw [show ('"' :: (escape g ++ ['"'])) ++ '\r' :: '\n' :: cs
          = '"' :: (escape g ++ '"' :: '\r' :: '\n' :: cs) from by simp]
    rw [step_sf_quote]
    rw [decode_q_escape_walk d g [] r rows ('\r' :: '\n' :: cs)]
    rw [decode_qq_crlf d hr]
    simp
  · rw [encodeField, if_neg hsp]
    have hall := any_isSpecial_false hsp
    cases g with
    | nil => simp [decodeAux]
    | cons c g1 =>
        obtain ⟨h1, h2, h3, h4⟩ :=
          (isSpecial_false_iff d c).mp (hall c (List.mem_cons_self _ _))
        rw [List.cons_append, step_sf_char d c h1 h2 h3 h4]
        rw [decode_fld_walk_crlf d g1 [c] r rows cs
          (fun x hx => hall x (List.mem_cons_of_mem _ hx))]
        simp

/-- The serialized fields of a nonempty record, from the field-start
state: the whole record is accumulated and the automaton returns to the
record-start state. -/
theorem decode_fields (d : Char) (hq : d ≠ '"') (hr : d ≠ '\r') (hn : d ≠ '\n') :
    ∀ (fs : List (List Char)) (r : List (List Char)) rows cs, fs ≠ [] →
      decodeAux d .sf [] r rows (joinFields d fs ++ '\r' :: '\n' :: cs)
        = decodeAux d .sr [] [] ((r.reverse ++ fs) :: rows) cs := by
  intro fs
  induction fs with
  | nil => intro r rows cs h; exact absurd rfl h
  | cons g fs IH =>
      intro r rows cs _
      cases fs with
      | nil =>
          rw [show joinFields d [g] = encodeField d g from rfl]
          rw [decode_field_crlf d hr g r rows cs]
          simp
      | cons g2 fs2 =>
          rw [show joinFields d (g :: g2 :: fs2)
                = encodeField d g ++ d :: joinFields d (g2 :: fs2) from rfl]
          rw [List.append_assoc, List.cons_append]
          rw [decode_field_delim d hq hr hn g r rows _]
          rw [IH (g :: r) rows cs (by simp)]
          simp

/-- The first character of a serialized record that is neither empty nor
the single-empty-field special case is not a line-terminator character. -/
theorem joinFields_head (d : Char) (hr : d ≠ '\r') (hn : d ≠ '\n') :
    ∀ fs : List (List Char), fs ≠ [] → fs ≠ [[]] →
      ∃ c rest, joinFields d fs = c :: rest ∧ c ≠ '\r' ∧ c ≠ '\n' := by
  intro fs h1 h2
  cases fs with
  | nil => exact absurd rfl h1
  | cons g fs2 =>
      by_cases hsp : g.any (isSpecial d) = true
      · have hef : encodeField d g = '"' :: (escape g ++ ['"']) := by
          rw [encodeField, if_pos hsp]
        cases fs2 with
        | nil =>
            exact ⟨'"', _, by rw [show joinFields d [g] = encodeField d g from rfl, hef],
              by decide, by decide⟩
        | cons g2 fs3 =>
            refine ⟨'"', (escape g ++ ['"']) ++ d :: joinFields d (g2 :: fs3), ?_,
              by decide, by decide⟩
            rw [show joinFields d (g :: g2 :: fs3)
                  = encodeField d g ++ d :: joinFields d (g2 :: fs3) from rfl, hef]
            rfl
      · have hef : encodeField d g = g := by rw [encodeField, if_neg hsp]
        have hall := any_isSpecial_false hsp
        cases g with
        | nil =>
            cases fs2 with
            | nil => exact absurd rfl h2
            | cons g2 fs3 =>
                refine ⟨d, joinFields d (g2 :: fs3), ?_, hr, hn⟩
                rw [show joinFields d ([] :: g2 :: fs3)
                      = encodeField d [] ++ d :: joinFields d (g2 :: fs3) from rfl, hef]
                rfl
        | cons c g1 =>
            obtain ⟨h3, h4, h5, h6⟩ :=
              (isSpecial_false_iff d c).mp (hall c (List.mem_cons_self _ _))
            cases fs2 with
            | nil =>
                exact ⟨c, _, by rw [show joinFields d [c :: g1] = encodeField d (c :: g1)
                  from rfl, hef], h5, h6⟩
            | cons g2 fs3 =>
                refine ⟨c, g1 ++ d :: joinFields d (g2 :: fs3), ?_, h5, h6⟩
                rw [show joinFields d ((c :: g1) :: g2 :: fs3)
                      = encodeField d (c :: g1) ++ d :: joinFields d (g2 :: fs3) from rfl,
                  hef]
                rfl

/-- One full encoded record (with its CRLF) appends one decoded record. -/
theorem decode_row (d : Char) (hq : d ≠ '"') (hr : d ≠ '\r') (hn : d ≠ '\n') :
    ∀ (fs : List (List Char)) rows cs,
      decodeAux d .sr [] [] rows (encodeRow d fs ++ '\r' :: '\n' :: cs)
        = decodeAux d .sr [] [] (fs :: rows) cs := by
  intro fs rows cs
  by_cases hone : fs = [[]]
  · subst hone
    rw [show encodeRow d [[]] = ['"', '"'] from by rw [encodeRow, if_pos rfl]]
    rw [show (['"', '"'] : List Char) ++ '\r' :: '\n' :: cs
          = '"' :: '"' :: '\r' :: '\n' :: cs from rfl]
    rw [show decodeAux d .sr [] [] rows ('"' :: '"' :: '\r' :: '\n' :: cs)
          = decodeAux d .q [] [] rows ('"' :: '\r' :: '\n' :: cs) from by
      simp [decodeAux]]
    rw [show decodeAux d .q [] [] rows ('"' :: '\r' :: '\n' :: cs)
          = decodeAux d .qq [] [] rows ('\r' :: '\n' :: cs) from by
      simp [decodeAux]]
    rw [decode_qq_crlf d hr]
    rfl
  · cases fs with
    | nil =>
        rw [show encodeRow d [] = joinFields d [] from by
          rw [encodeRow, if_neg (by simp)]]
        rw [show joinFields d [] = [] from rfl]
        simp [decodeAux]
    | cons g fs2 =>
        rw [show encodeRow d (g :: fs2) = joinFields d (g :: fs2) from by
          rw [encodeRow, if_neg hone]]
        obtain ⟨c, rest, hjf, hc1, hc2⟩ :=
          joinFields_head d hr hn (g :: fs2) (by simp) hone
        rw [hjf, List.cons_append,
          decode_sr_eq_sf d c hc1 hc2 [] [] rows (rest ++ '\r' :: '\n' :: cs),
          ← List.cons_append, ← hjf]
        have := decode_fields d hq hr hn (g :: fs2) [] rows cs (by simp)
        simpa using this

/-- Decoding an encoded row list recovers it, with any previously
finished records prepended. -/
theorem decode_encode_aux (d : Char) (hq : d ≠ '"') (hr : d ≠ '\r') (hn : d ≠ '\n') :
    ∀ (rl : List (List (List Char))) rows,
      decodeAux d .sr [] [] rows (encode d rl) = rows.reverse ++ rl := by
  intro rl
  induction rl with
  | nil =>
      intro rows
      simp [encode, decodeAux]
  | cons r rl IH =>
      intro rows
      rw [show encode d (r :: rl) = (encodeRow d r ++ ['\r', '\n']) ++ encode d rl from by
        simp [encode]]
      rw [List.append_assoc]
      rw [show (['\r', '\n'] : List Char) ++ encode d rl
            = '\r' :: '\n' :: encode d rl from rfl]
      rw [decode_row d hq hr hn r rows (encode d rl)]
      rw [IH (r :: rows)]
      simp

/-- Round-trip of the character-level codec. -/
theorem decode_encode (d : Char) (hq : d ≠ '"') (hr : d ≠ '\r') (hn : d ≠ '\n')
    (rl : List (List (List Char))) : decode d (encode d rl) = rl := by
  simpa [decode] using decode_encode_aux d hq hr hn rl []

end Csv

theorem map_mk_data (l : List (List String)) :
    (l.map (fun r => r.map String.data)).map
      (fun r => r.map (fun f => (⟨f⟩ : String))) = l := by
  have h1 : ∀ r : List String, (r.map String.data).map (fun f => (⟨f⟩ : String)) = r := by
    intro r
    induction r with
    | nil => rfl
    | cons s r IH =>
        cases s
        simp only [List.map_cons, IH]
  induction l with
  | nil => rfl
  | cons r l IH => simp only [List.map_cons, IH, h1 r]

/-- Claim C3: for text rows and a delimiter that collides with neither the
quote character nor a line terminator, decoding the encoding of the rows
yields the rows again, every field as unconverted text; with a header
whose column names pass namedtuple's field-name validation, the first
record carries those names, the namedtuple reader consumes it, and the
remaining rows are recovered (header excluded from the comparison).  The
codec never interprets the transfer null token, so the claim hypothesis
that it is absent from the data is not even needed. -/
theorem fwrite_fread_roundtrip (d : Char) (hq : d ≠ '"') (hr : d ≠ '\r') (hn : d ≠ '\n')
    (rows : List (List String)) (cols : List String)
    (hvalid : validFieldNames cols = true)
    (harity : ∀ r ∈ rows, r.length = cols.length) :
    fread_csv false d (fwrite_csv d rows) = .ok rows
    ∧ fread_csv true d (fwrite_csv d (cols :: rows)) = .ok rows := by
  have hdec : ∀ l : List (List String),
      (Csv.decode d (fwrite_csv d l).data).map
        (fun r => r.map (fun f => (⟨f⟩ : String))) = l := by
    intro l
    rw [show (fwrite_csv d l).data
          = Csv.encode d (l.map (fun r => r.map String.data)) from rfl]
    rw [Csv.decode_encode d hq hr hn, map_mk_data]
  constructor
  · simp [fread_csv, hdec rows]
  · simp only [fread_csv, if_pos, itertuples, hdec (cols :: rows), hvalid,
      Bool.not_true, Bool.false_eq_true, if_false]
    rw [if_pos]
    exact List.all_eq_true.mpr (fun r hrw => decide_eq_true (harity r hrw))

/-- Witness for C3 at the scenario of the specification: two data rows
under a comma delimiter with a header line of valid field names. -/
theorem fwrite_fread_roundtrip_witness :
    fread_csv false ',' (fwrite_csv ',' [["1", "a"], ["2", ""]]) = .ok [["1", "a"], ["2", ""]]
    ∧ fread_csv true ',' (fwrite_csv ',' (["id", "name"] :: [["1", "a"], ["2", ""]]))
        = .ok [["1", "a"], ["2", ""]] :=
  fwrite_fread_roundtrip ',' (by decide) (by decide) (by decide)
    [["1", "a"], ["2", ""]] ["id", "name"] (by decide) (by decide)

end Autos
